import Mathlib

/-!
# Verification of the entity-resolution core of the legislative-data pipeline

Shallow embedding, in Lean 4, of the record-matching and standardization core
of the repository (files `src/common_utils.py`, `src/bio_utils.py`,
`src/processing_utils.py`, `src/feature_engineering_utils.py`), together with
theorems settling the behavioural claims of the design specification.

Modelling conventions:
* Python strings are Lean `String` (lists of `Char`); `pandas` cells are
  `PyObj` (a string or a single "missing/non-string" value, since `pandas`
  treats all missing values as one value for `unique`/dict lookup).
* Python dicts built by iterated assignment are association lists where a
  later assignment shadows an earlier one (insertion by prepending, lookup by
  first match).
* The external `rapidfuzz` scorers (`fuzz.token_set_ratio`,
  `fuzz.partial_token_set_ratio`, `fuzz.WRatio`) and the external
  sentence-embedding similarity are *library* code, not repository code; they
  are passed as explicit function parameters (as `process.extract` itself
  receives its scorer as a parameter), with scores in `ℚ` standing for the
  nonnegative floats the library returns.  Every theorem about the matching
  logic therefore holds for the concrete library scorers as a special case.
* `unicodedata` lowercasing/NFD decomposition is modelled by explicit finite
  tables covering the alphabet the repository manipulates (ASCII plus the
  accented letters appearing in its curated vocabularies) plus the combining
  marks those letters decompose into; all other characters are fixed points.
-/

namespace LVBP

/-- A `pandas` cell: either a Python `str` or a non-string value
(`NaN`, `None`, a float, ...).  A single constructor models all missing
values because `pandas.unique` and dict-based `Series.map` treat them as a
single distinct value. -/
inductive PyObj where
  | str (s : String)
  | na
deriving DecidableEq, Repr

/-- Combining acute accent U+0301 (Unicode category Mn). -/
def markAcute : Char := Char.ofNat 0x0301

/-- Combining grave accent U+0300 (Unicode category Mn). -/
def markGrave : Char := Char.ofNat 0x0300

/-- Combining tilde U+0303 (Unicode category Mn). -/
def markTilde : Char := Char.ofNat 0x0303

/-- Combining diaeresis U+0308 (Unicode category Mn). -/
def markDiaeresis : Char := Char.ofNat 0x0308

/-- Model of `str.lower` as a finite table: ASCII uppercase letters and the
uppercase accented letters used in the repository map to their lowercase
forms; every other character is a fixed point. -/
def LOWER_TABLE : List (Char × Char) :=
  [('A', 'a'), ('B', 'b'), ('C', 'c'), ('D', 'd'), ('E', 'e'), ('F', 'f'),
   ('G', 'g'), ('H', 'h'), ('I', 'i'), ('J', 'j'), ('K', 'k'), ('L', 'l'),
   ('M', 'm'), ('N', 'n'), ('O', 'o'), ('P', 'p'), ('Q', 'q'), ('R', 'r'),
   ('S', 's'), ('T', 't'), ('U', 'u'), ('V', 'v'), ('W', 'w'), ('X', 'x'),
   ('Y', 'y'), ('Z', 'z'),
   ('Á', 'á'), ('É', 'é'), ('Í', 'í'), ('Ó', 'ó'), ('Ú', 'ú'),
   ('Ñ', 'ñ'), ('Ü', 'ü'), ('Ä', 'ä'), ('À', 'à')]

/-- Model of `unicodedata.normalize("NFD", ·)` on one character, as a finite
table: each precomposed accented letter decomposes into its base letter
followed by a combining mark; every other character is left alone. -/
def NFD_TABLE : List (Char × List Char) :=
  [('á', ['a', markAcute]), ('é', ['e', markAcute]), ('í', ['i', markAcute]),
   ('ó', ['o', markAcute]), ('ú', ['u', markAcute]), ('à', ['a', markGrave]),
   ('ñ', ['n', markTilde]), ('ü', ['u', markDiaeresis]),
   ('ä', ['a', markDiaeresis]),
   ('Á', ['A', markAcute]), ('É', ['E', markAcute]), ('Í', ['I', markAcute]),
   ('Ó', ['O', markAcute]), ('Ú', ['U', markAcute]), ('À', ['A', markGrave]),
   ('Ñ', ['N', markTilde]), ('Ü', ['U', markDiaeresis]),
   ('Ä', ['A', markDiaeresis])]

/-- `unicodedata.category c == "Mn"` restricted to the combining marks the
`NFD_TABLE` can produce. -/
def isMn (c : Char) : Bool :=
  c == markAcute || c == markGrave || c == markTilde || c == markDiaeresis

/-- Whitespace as stripped by Python `str.strip()`. -/
def isPySpace (c : Char) : Bool :=
  c == ' ' || c == '\t' || c == '\n' || c == '\r' ||
  c == Char.ofNat 0x0B || c == Char.ofNat 0x0C

/-- One character of `str.lower`. -/
def pyLower (c : Char) : Char :=
  match LOWER_TABLE.find? (fun p => p.1 == c) with
  | some p => p.2
  | none => c

/-- NFD decomposition of one character. -/
def nfdChar (c : Char) : List Char :=
  match NFD_TABLE.find? (fun p => p.1 == c) with
  | some p => p.2
  | none => [c]

/-- NFD decomposition of one character with the combining marks (category Mn)
already removed; `normalizeChars` is a `flatMap` of this. -/
def normCore (c : Char) : List Char :=
  (nfdChar c).filter (fun d => !(isMn d))

/-- `str.strip()` on a character list: drop whitespace from both ends. -/
def pyStripChars (l : List Char) : List Char :=
  ((l.dropWhile isPySpace).reverse.dropWhile isPySpace).reverse

/-- The character-list body of `normalize_string` (file `common_utils.py`,
lines 63-73): `s.lower().strip()`, then NFD-decompose and drop every
character of category Mn. -/
def normalizeChars (l : List Char) : List Char :=
  ((pyStripChars (l.map pyLower)).flatMap nfdChar).filter (fun d => !(isMn d))

/-- `normalize_string` (`common_utils.py`, lines 63-73): a non-string input
returns the empty string; a string is lowercased, stripped, NFD-decomposed
and cleared of combining marks.  Total by construction (never raises). -/
def normalize_string : PyObj → String
  | .na => ""
  | .str s => String.mk (normalizeChars s.data)

/-- `normalize_string` specialized to genuine strings. -/
def normStr (s : String) : String := normalize_string (.str s)

/-! ## Python dict and pandas helpers -/

/-- Python dict lookup (`d.get(k)`) on an association list in which the most
recent assignment was prepended. -/
def dictGet {α β : Type} [BEq α] (d : List (α × β)) (k : α) : Option β :=
  (d.find? (fun p => p.1 == k)).map (fun p => p.2)

/-- Python dict assignment `d[k] = v`: prepend, so that lookup-by-first-match
sees the latest assignment. -/
def dictSet {α β : Type} (d : List (α × β)) (k : α) (v : β) : List (α × β) :=
  (k, v) :: d

/-- `pandas.Series.unique`: the distinct values in order of first
appearance. -/
def pdUnique {α : Type} [DecidableEq α] (l : List α) : List α :=
  l.foldl (fun acc x => if x ∈ acc then acc else acc ++ [x]) []

/-! ## The lexical fuzzy matcher (`bio_utils.py`) -/

/-- Insert one scored candidate into a list already sorted by score in
descending order, after all candidates with an equal or higher score
(so that the overall sort is stable). -/
def insertScoredDesc {α : Type} (x : α × ℚ) : List (α × ℚ) → List (α × ℚ)
  | [] => [x]
  | y :: ys => if y.2 < x.2 then x :: y :: ys else y :: insertScoredDesc x ys

/-- Stable sort by score, descending: candidates are inserted in their
original order, each after the already-present candidates of equal score. -/
def sortScoredDesc {α : Type} (l : List (α × ℚ)) : List (α × ℚ) :=
  l.foldl (fun acc x => insertScoredDesc x acc) []

/-- `rapidfuzz.process.extract(query, choices, scorer=sc, processor=proc,
limit=k)`: score every choice with `sc` applied to the processed query and
processed choice, and return the `k` best `(choice, score)` pairs, best
first, original order preserved among equal scores.  The scorer is the
external library function, passed as a parameter exactly as in the call. -/
def processExtract (sc : String → String → ℚ) (proc : String → String)
    (query : String) (choices : List String) (k : Nat) : List (String × ℚ) :=
  (sortScoredDesc (choices.map (fun c => (c, sc (proc query) (proc c))))).take k

/-- The re-ranking loop of `find_best_match_bcn` (`bio_utils.py`, lines
52-69) and `_find_best_uni_match` (`processing_utils.py`, lines 209-223):
starting from `(None, 0)`, replace the incumbent whenever a candidate's
score is *strictly* greater. -/
def selectBest (l : List (String × ℚ)) : Option String × ℚ :=
  l.foldl
    (fun best p => if best.2 < p.2 then (some p.1, p.2) else best)
    (none, 0)

/-- The combined ("final") scores of `find_best_match_bcn`: each of the top-5
candidates by `sc1` is re-scored with `sc2` on the normalized strings, and
keeps the maximum of the two scores. -/
def combinedScores (sc1 sc2 : String → String → ℚ) (query : String)
    (choices : List String) : List (String × ℚ) :=
  (processExtract sc1 normStr query choices 5).map
    (fun p => (p.1, max p.2 (sc2 (normStr query) (normStr p.1))))

/-- `find_best_match_bcn` (`bio_utils.py`, lines 24-74).  `sc1` models
`fuzz.token_set_ratio` and `sc2` models `fuzz.partial_token_set_ratio`
(external `rapidfuzz` functions, received as parameters).  A falsy query or
choice list returns `(None, 0)`; otherwise the top-5 extraction is re-ranked
and the result is gated by `threshold` (inclusive `>=`). -/
def find_best_match_bcn (sc1 sc2 : String → String → ℚ) (query : String)
    (choices : List String) (threshold : ℚ) : Option String × ℚ :=
  if query = "" ∨ choices = [] then (none, 0)
  else
    let best := selectBest (combinedScores sc1 sc2 query choices)
    if threshold ≤ best.2 then best else (none, best.2)

/-! ## The university resolver (`processing_utils.py`) -/

/-- The curated alias table `UNI_MAP` (`processing_utils.py`, lines 93-128):
canonical label to list of known raw-text variants, in source order. -/
def UNI_MAP : List (String × List String) :=
  [("Pontificia Universidad Católica de Chile",
    ["pontificia universidad catolica de chile", "universidad catolica de chile",
     "puc", "universidad catolica", "pontificia universidad catolica",
     "pontificia universidad catolica de santiago",
     "pontifica universidad catolica de chile"]),
   ("Universidad de Chile",
    ["universidad de chile", "u de chile", "uchile",
     "escuela de teatro de la universidad de chile"]),
   ("Universidad de Santiago de Chile",
    ["universidad de santiago de chile", "universidad de santiago", "usach",
     "universidad tecnica del estado", "ute"]),
   ("Universidad de Concepción", ["universidad de concepcion", "udec"]),
   ("Universidad Técnica Federico Santa María",
    ["universidad tecnica federico santa maria", "utfsm",
     "universidad federico santa maria"]),
   ("Universidad Austral de Chile",
    ["universidad austral de chile", "universidad austral de valdivia"]),
   ("Universidad Adolfo Ibáñez", ["universidad adolfo ibanez", "uai"]),
   ("Universidad de Los Andes",
    ["universidad de los andes (chile)", "universidad de los andes"]),
   ("Universidad del Desarrollo", ["universidad del desarrollo", "udd"]),
   ("Universidad Diego Portales", ["universidad diego portales", "udp"]),
   ("Universidad Andrés Bello",
    ["universidad andres bello", "unab", "nacional andres bello"]),
   ("Universidad Católica del Norte", ["universidad catolica del norte"]),
   ("Universidad de La Frontera", ["universidad de la frontera", "ufro"]),
   ("Universidad de Valparaíso", ["universidad de valparaiso", "uv"]),
   ("Universidad de Artes, Ciencias y Comunicación (UNIACC)",
    ["universidad de artes y las ciencias sociales",
     "universidad de artes y ciencias de la comunicacion"]),
   ("Universidad Tecnológica de Chile INACAP",
    ["inacap", "instituto nacional de capacitacion",
     "universidad tecnologica (inacap)", "instituto profesional inacap",
     "instituto inacap", "universidad tecnológica"]),
   ("Instituto Profesional Agrario Adolfo Matthei",
    ["instituto superior de agricultura adolfo matthei",
     "instituto profesional agrario adolfo matthei"]),
   ("Instituto Profesional Duoc UC", ["duoc uc"]),
   ("Universidad Extranjera",
    ["universidad de california", "georgetown", "complutense de madrid",
     "universidad de cuenca", "universitat basel",
     "universidad de bilbao-espana", "universita degli studi di milano",
     "instituto tecnico de estocolmo",
     "universidad nacional autonoma de mexico",
     "escuela nacional de antropologia e historia de mexico",
     "universidad internacional de cataluna, espana",
     "universidad de heidelberg", "universidad mayor de san simon (umss)",
     "madrid, espana", "cochabamba, bolivia", "chicago, estados unidos",
     "francia", "malmo, suecia", "zurich, suiza", "buenos aires, argentina",
     "viena - hietzing, austria", "washington dc, estados unidos"]),
   ("Desconocida", ["nombre universidad", "icce santiago", "nan", ""])]

/-- The canonical fallback list `UNIVERSIDADES_CANONICAS`
(`processing_utils.py`, lines 132-178), in source order. -/
def UNIVERSIDADES_CANONICAS : List String :=
  ["Pontificia Universidad Católica de Chile", "Universidad de Chile",
   "Universidad de Santiago de Chile", "Universidad de Concepción",
   "Universidad Católica de Valparaíso", "Universidad Adolfo Ibáñez",
   "Universidad Técnica Federico Santa María", "Universidad de Valparaíso",
   "Universidad Tecnológica de Chile INACAP", "Universidad de Los Andes",
   "Universidad del Desarrollo", "Universidad Alberto Hurtado",
   "Universidad Andrés Bello", "Universidad Autónoma de Chile",
   "Universidad Arturo Prat", "Universidad Austral de Chile",
   "Universidad de La Frontera", "Universidad de Magallanes",
   "Universidad de Talca", "Universidad Católica del Norte",
   "Universidad Católica del Maule", "Universidad Católica de Temuco",
   "Universidad Católica de la Santísima Concepción",
   "Universidad Bernardo O\x27Higgins",
   "Universidad Central de Chile", "Universidad de Antofagasta",
   "Universidad de Atacama", "Universidad de La Serena",
   "Universidad del Bío-Bío",
   "Universidad de Playa Ancha de Ciencias de la Educación",
   "Universidad de Tarapacá", "Universidad de Viña del Mar",
   "Universidad Diego Portales", "Universidad Finis Terrae",
   "Universidad Mayor", "Universidad Metropolitana de Ciencias de la Educación",
   "Universidad Miguel de Cervantes", "Universidad San Sebastián",
   "Instituto Profesional AIEP", "Instituto Profesional ARCOS",
   "Instituto Profesional de Chile", "Instituto Profesional Duoc UC",
   "Instituto Profesional Escuela de Contadores Auditores de Santiago",
   "Instituto Profesional Agrario Adolfo Matthei",
   "Instituto Nacional de Capacitación Profesional (INACAP)",
   "Instituto Profesional Iplacex", "Instituto Profesional Santo Tomás",
   "Instituto Profesional Virginio Gómez", "Instituto Profesional CIISA",
   "Instituto Profesional Galdámez", "Universidad de California",
   "Universidad de Cuenca", "Universidad de Georgetown",
   "Universidad Complutense de Madrid", "Universität Basel",
   "Universidad de Bilbao-España", "Università degli Studi di Milano",
   "Universidad Real", "Instituto Técnico de Estocolmo",
   "Universidad Nacional Autónoma de México",
   "Escuela Nacional de Antropología e Historia de México",
   "Universidad Internacional de Cataluña, España",
   "Universidad de Heidelberg", "Universidad Mayor de San Simón",
   "Universidad Católica Raúl Silva Henríquez",
   "Escuela de Comunicación Mónica Herrera",
   "Universidad Contemporánea de Arica",
   "Instituto Bancario Guillermo Subercaseaux", "Universidad Pedro de Valdivia",
   "Instituto Vicente Pérez Rosales",
   "Universidad de Los Lagos", "Instituto Nacional de Capacitación Profesional",
   "Universidad de La República",
   "Universidad Gabriela Mistral", "Universidad Mariano Egaña",
   "Universidad Católica de la Santísima Concepción", "Universidad Bolivariana",
   "Universidad de Artes, Ciencias y Comunicación (UNIACC)",
   "Universidad Academia de Humanismos Cristiano",
   "Instituto Profesional Diego Portales",
   "Universidad Iberoamericana de Ciencias y Tecnología",
   "Universidad de Antofagasta",
   "Universidad del Pacífico",
   "Universidad Extranjera"]

/-- The inversion loop of `standardize_education` (`processing_utils.py`,
lines 253-256): `for key, values in UNI_MAP.items(): for v in values:
reverse_map[v] = key`.  Later assignments shadow earlier ones. -/
def buildReverseMap (m : List (String × List String)) : List (String × String) :=
  m.foldl (fun acc p => p.2.foldl (fun a v => dictSet a v p.1) acc) []

/-- The variant-to-canonical map the resolver receives. -/
def reverseMapUni : List (String × String) := buildReverseMap UNI_MAP

/-- `raw_entry.split(",")[0].split("(")[0].strip()` (`processing_utils.py`,
line 190): the text before the first comma or opening parenthesis. -/
def primaryChars (l : List Char) : List Char :=
  pyStripChars ((l.takeWhile (fun c => c ≠ ',')).takeWhile (fun c => c ≠ '('))

/-- The body of `_find_best_uni_match` after the primary entry has been cut
out (`processing_utils.py`, lines 191-227): normalize; reject empty/"nan";
exact lookup in the inverted alias map; otherwise top-5 extraction with
`fuzz.WRatio` (parameter `sc1`), re-ranking with
`fuzz.partial_token_set_ratio` (parameter `sc2`), and a fixed acceptance
cutoff of 90.  The inner `match` on `best.1` is unreachable when the best
score is at least 90, because reaching a positive score forces the loop to
have set a name; Python would return `None` there. -/
def resolvePrimary (sc1 sc2 : String → String → ℚ) (choices : List String)
    (rmap : List (String × String)) (primary : List Char) : String :=
  let norm := String.mk (normalizeChars primary)
  if norm = "" ∨ norm = "nan" then "Desconocida"
  else
    match dictGet rmap norm with
    | some m => m
    | none =>
      let best := selectBest (combinedScores sc1 sc2 norm choices)
      if 90 ≤ best.2 then
        match best.1 with
        | some m => m
        | none => "Otra / Desconocida"
      else "Otra / Desconocida"

/-- `_find_best_uni_match` (`processing_utils.py`, lines 182-227). -/
def _find_best_uni_match (sc1 sc2 : String → String → ℚ) (raw : PyObj)
    (choices : List String) (rmap : List (String × String)) : String :=
  match raw with
  | .na => "Desconocida"
  | .str r => resolvePrimary sc1 sc2 choices rmap (primaryChars r.data)

/-- The `universidad` section of `standardize_education`
(`processing_utils.py`, lines 249-274): build the reverse alias map, take the
distinct raw values of the column, resolve each distinct value once into
`map_dict`, and broadcast `map_dict` over all rows with `Series.map` (a raw
value absent from the dict would broadcast to `NaN`, modelled by `none`). -/
def standardize_education_universidad (sc1 sc2 : String → String → ℚ)
    (cells : List PyObj) : List (Option String) :=
  let reverse_map := buildReverseMap UNI_MAP
  let unique_universities := pdUnique cells
  let map_dict := unique_universities.map
    (fun u => (u, _find_best_uni_match sc1 sc2 u UNIVERSIDADES_CANONICAS reverse_map))
  cells.map (fun c => dictGet map_dict c)

/-! ## Civil-status standardization (`processing_utils.py`, lines 409-457) -/

/-- `n` starts with `needle`. -/
def isPrefixChars : List Char → List Char → Bool
  | [], _ => true
  | _ :: _, [] => false
  | a :: as, b :: bs => a == b && isPrefixChars as bs

/-- Substring containment, the semantics of `Series.str.contains` with a
literal pattern. -/
def containsChars (hay needle : List Char) : Bool :=
  match hay with
  | [] => needle.isEmpty
  | _ :: hs => isPrefixChars needle hay || containsChars hs needle

/-- Substring containment on strings. -/
def strContains (hay needle : String) : Bool := containsChars hay.data needle.data

/-- The `np.select` of `standardize_civil_status` (`processing_utils.py`,
lines 427-454): the first matching condition selects its category; the
`"padre de|null"` junk condition and the default both select `NaN`
(modelled `none`). -/
def civilSelect (o : PyObj) : Option String :=
  let n := normalize_string o
  if strContains n "conviviente" then some "Conviviente Civil"
  else if strContains n "casad" then some "Casado/a"
  else if strContains n "divorciad" then some "Divorciado/a"
  else if strContains n "separad" then some "Separado/a"
  else if strContains n "viud" then some "Viudo/a"
  else if strContains n "solter" then some "Soltero/a"
  else if strContains n "padre de" || strContains n "null" then none
  else none

/-- `standardize_civil_status` (`processing_utils.py`, lines 409-457):
normalize each cell, apply the conditional mapping, and `fillna` the `NaN`
results with the sentinel `"Desconocido"`. -/
def standardize_civil_status (cells : List PyObj) : List String :=
  cells.map (fun c => (civilSelect c).getD "Desconocido")

/-! ## Career standardization (`processing_utils.py`, lines 289-407) -/

/-- `CAREER_MAP_REGEX` (`processing_utils.py`, lines 289-321): category to
regex pattern, in source (definition) order.  The patterns are kept verbatim
as data; `re.search` itself is external library code and is received as a
parameter by the functions below. -/
def CAREER_MAP_REGEX : List (String × String) :=
  [("Geografía", "geograf[ií]a|geograf(o|a)"),
   ("Asistente Social", "asistente social|trabaj(o|adora) social"),
   ("Licenciatura en matemáticas",
    "licenciatura en matem[áa]ticas|matem[áa]ticas"),
   ("Teología", "teolog(o|a)|teologia"),
   ("Biología Marina", "biolog(o|a) marino|ciencias del mar|oceanograf[ií]a"),
   ("Marketing", "marketing|comercio internacional|publicidad y marketing"),
   ("Ingeniería en Metalurgia",
    "ingenier([íi]|)(o|a|) en metalurgia|metalurgista"),
   ("Ingeniería Comercial",
    "economia|ingenier([íi]|)(o|a|) comercial|ciencias de la administracion|ciencias economicas|gestion de empresas|administracion de empresas|administracion y direccion de empresas|ingenier(o|a) en administraci[óo]n|direcci[óo]n y gesti[óo]n servicios|contador|auditor|gestion gerencial|administraci[óo]n bancaria y contabilidad"),
   ("Ingeniería Civil",
    "ingenier([íi]|)(o|a|) civil|(?<!ejecucion\\s)ingenier([íi]|)(o|a|) industrial|obras civiles|construccion civil|ingenier[íi]a civil industrial"),
   ("Ingeniería (Ejecución/Técnica)",
    "ingenier([íi]|)(o|a|) en ejecucion|ejecucion|tecnico|laboratista|geomensura|quimico industrial|electrico|electronica|mecanico|tecnica en quimica"),
   ("Derecho", "derecho|abogad(o|a)|jur[íi]dica|leyes|ciencias jur[íi]dicas"),
   ("Salud",
    "m[eé]dic(o|a)|cirujan(o|a)|medicina|odontolog|enfermer(o|a)|obstetricia|matr[oó]n|kinesiolog|fonoaudiolog|psicolog[ií]a|psiquiatr[ií]a|enfermer(o|a)|enfermeria"),
   ("Educación / Pedagogía",
    "profesor(|a)|pedagog[ií]a|educador(a)|educacion|licenciado en educacion|ense[ñn]anza"),
   ("Agronomía / Veterinaria",
    "agronomo|agronomia|forestal|agricola|veterinaria|pecuaria"),
   ("Administración Pública",
    "administraci[óo]n publica|administrador(|a) p[úu]blic(o|a)|ciencias politicas y administrativas|oficial civil|programas sociales"),
   ("Periodismo / Comunicaciones",
    "periodis|comunicaci[oó]n social|comunicador social|relaciones publicas|publicidad"),
   ("Arquitectura / Diseño",
    "arquitectura|arquitect(o|a)|dise[ñn]o|dise[ñn]ador industrial"),
   ("Arte / Actuación",
    "arte|actor|actriz|actuacion|teatro|musica|danza|gestion cultural"),
   ("Ciencias Sociales",
    "soci[óo]log(o|a)|ciencias pol[íi]ticas|sociolog[ií]a|antropolog[ií]a|ciencia politica|cientista politico|historia|filosof[ií]a|letras|literatura|bachillerato en humanidades")]

/-- A raw `carrera` cell as `_clean_raw_career` distinguishes the cases: a
non-string, a string that `ast.literal_eval` parses as a Python list, or a
plain string. -/
inductive RawCareer where
  | na
  | listStr (items : List String)
  | plain (s : String)

/-- `re.split(r",|;", s)`. -/
def splitCommaSemi : List Char → List (List Char)
  | [] => [[]]
  | c :: cs =>
    if c == ',' || c == ';' then [] :: splitCommaSemi cs
    else
      match splitCommaSemi cs with
      | [] => [[c]]
      | g :: gs => (c :: g) :: gs

/-- `_clean_raw_career` (`processing_utils.py`, lines 324-347): non-strings
give `[]`; a list-as-string gives its items normalized; a plain string is
split on commas/semicolons, blank pieces are dropped, the rest normalized. -/
def _clean_raw_career : RawCareer → List String
  | .na => []
  | .listStr items => items.map (fun i => normStr i)
  | .plain s =>
      ((splitCommaSemi s.data).filter (fun e => pyStripChars e ≠ [])).map
        (fun e => normStr (String.mk e))

/-- The per-value regex loop of `standardize_career` (`processing_utils.py`,
lines 378-389): for each nonempty cleaned term, the *first* category (in
`CAREER_MAP_REGEX` order) whose pattern matches is appended unless already
present.  `reSearch pattern term` models the external `re.search`. -/
def careerMatches (reSearch : String → String → Bool)
    (cleaned : List String) : List String :=
  cleaned.foldl
    (fun cats term =>
      if term = "" then cats
      else
        match CAREER_MAP_REGEX.find? (fun p => reSearch p.2 term) with
        | some p => if p.1 ∈ cats then cats else cats ++ [p.1]
        | none => cats)
    []

/-- The category list `standardize_career` assigns to one raw value
(`processing_utils.py`, lines 391-395): the collected matches, or
`["Desconocida"]` when there are none. -/
def careerCategories (reSearch : String → String → Bool)
    (raw : RawCareer) : List String :=
  let cats := careerMatches reSearch (_clean_raw_career raw)
  if cats = [] then ["Desconocida"] else cats

/-! ## Semantic fallback matcher (`feature_engineering_utils.py`) -/

/-- Maximum of a list of scores (meaningful only for nonempty lists). -/
def maxQ : List ℚ → ℚ
  | [] => 0
  | [x] => x
  | x :: y :: ys => max x (maxQ (y :: ys))

/-- `tensor.argmax()`: index of the first occurrence of the maximum. -/
def idxOfMax : List ℚ → Nat
  | [] => 0
  | [_] => 0
  | x :: y :: ys => if maxQ (y :: ys) ≤ x then 0 else idxOfMax (y :: ys) + 1

/-- `find_dependencia_fast` (`feature_engineering_utils.py`, lines 19-43).
`rows` models the MINEDUC frame as `(colegio_merge_key, COD_DEPE)` pairs;
`cosSim q` models `util.cos_sim(MODEL.encode(q), emb_candidates)` — the
cosine-similarity row produced by the external embedding model against the
precomputed candidate embeddings, one score per candidate row.  A non-string
or blank query short-circuits to `(None, 0, None)`; otherwise the arg-max
similarity is gated by `threshold` (rejection on strictly below). -/
def find_dependencia_fast (cosSim : String → List ℚ)
    (rows : List (String × Int)) (query : PyObj) (threshold : ℚ) :
    Option String × ℚ × Option Int :=
  match query with
  | .na => (none, 0, none)
  | .str q =>
    if pyStripChars q.data = [] then (none, 0, none)
    else
      let scores := cosSim q
      let bestIdx := idxOfMax scores
      let bestScore := scores.getD bestIdx 0
      if bestScore < threshold then (none, bestScore * 100, none)
      else
        match rows.get? bestIdx with
        | some r => (some r.1, bestScore * 100, some r.2)
        | none => (none, bestScore * 100, none)

/-! ## Bulletin deduplication (`processing_utils.py`, lines 697-735) -/

/-- `df_full.drop_duplicates(subset=["boletin_id"], keep="first")`
(`processing_utils.py`, line 732), applied to the concatenation of the
loaded bulletin files: keep, for each key, the first row in which the key
appears, preserving input order and leaving the surviving rows verbatim.
`κ` is the `boletin_id` column; `π` is the rest of the row. -/
def dedupByKeyKeepFirst {κ π : Type} [DecidableEq κ]
    (rows : List (κ × π)) : List (κ × π) :=
  rows.foldl
    (fun acc r => if r.1 ∈ acc.map Prod.fst then acc else acc ++ [r]) []

/-! ## Specification-level descriptions of the re-ranking loop -/

/-- The highest combined score of a scored candidate list, floored at the
loop's initial value 0. -/
def bestFinalScore (l : List (String × ℚ)) : ℚ :=
  (l.map Prod.snd).foldl max 0

/-- The first candidate (in list order) whose combined score attains
`bestFinalScore` — the "first encountered wins" tie-break. -/
def firstArgmax (l : List (String × ℚ)) : Option String :=
  (l.find? (fun p => p.2 == bestFinalScore l)).map Prod.fst

/-! ## Generic lemmas about the dict/unique helpers -/

theorem mem_foldl_dedup {α : Type} [DecidableEq α] (l : List α) (acc : List α)
    (x : α) :
    (x ∈ l.foldl (fun a y => if y ∈ a then a else a ++ [y]) acc) ↔
      (x ∈ acc ∨ x ∈ l) := by
  induction l generalizing acc with
  | nil => simp
  | cons y ys ih =>
    simp only [List.foldl_cons, ih, List.mem_cons]
    by_cases hy : y ∈ acc
    · simp only [if_pos hy]
      constructor
      · rintro (h | h)
        · exact Or.inl h
        · exact Or.inr (Or.inr h)
      · rintro (h | h | h)
        · exact Or.inl h
        · exact Or.inl (h ▸ hy)
        · exact Or.inr h
    · simp only [if_neg hy, List.mem_append, List.mem_singleton]
      tauto

theorem mem_pdUnique {α : Type} [DecidableEq α] (l : List α) (x : α) :
    x ∈ pdUnique l ↔ x ∈ l := by
  unfold pdUnique
  rw [mem_foldl_dedup]
  simp

theorem nodup_foldl_dedup {α : Type} [DecidableEq α] (l : List α)
    (acc : List α) (hacc : acc.Nodup) :
    (l.foldl (fun a y => if y ∈ a then a else a ++ [y]) acc).Nodup := by
  induction l generalizing acc with
  | nil => exact hacc
  | cons y ys ih =>
    simp only [List.foldl_cons]
    by_cases hy : y ∈ acc
    · rw [if_pos hy]; exact ih acc hacc
    · rw [if_neg hy]
      refine ih _ ?_
      simpa [List.nodup_append] using ⟨hacc, hy⟩

theorem pdUnique_nodup {α : Type} [DecidableEq α] (l : List α) :
    (pdUnique l).Nodup :=
  nodup_foldl_dedup l [] List.nodup_nil

theorem pdUnique_eq_nil {α : Type} [DecidableEq α] (l : List α) :
    pdUnique l = [] ↔ l = [] := by
  constructor
  · intro h
    cases l with
    | nil => rfl
    | cons x xs =>
      exfalso
      have : x ∈ pdUnique (x :: xs) := (mem_pdUnique _ _).2 (List.mem_cons_self x xs)
      rw [h] at this
      exact List.not_mem_nil x this
  · rintro rfl; rfl

theorem dictGet_map_self {α β : Type} [DecidableEq α] (f : α → β)
    (l : List α) (x : α) (hx : x ∈ l) :
    dictGet (l.map (fun u => (u, f u))) x = some (f x) := by
  induction l with
  | nil => cases hx
  | cons u us ih =>
    unfold dictGet
    simp only [List.map_cons, List.find?_cons]
    by_cases hu : u = x
    · subst hu
      simp
    · have hbeq : (u == x) = false := by simp [hu]
      rw [hbeq]
      rcases List.mem_cons.1 hx with h | h
      · exact absurd h.symm hu
      · exact ih h

theorem mapCongrMem {α β : Type} (l : List α) (f g : α → β)
    (h : ∀ a ∈ l, f a = g a) : l.map f = l.map g := by
  induction l with
  | nil => rfl
  | cons a as ih =>
    simp only [List.map_cons]
    rw [h a (List.mem_cons_self a as), ih (fun x hx => h x (List.mem_cons_of_mem a hx))]

/-- Shared lemma: the map-once standardizer agrees row-by-row with direct
resolution (used by the C1 and C8 theorems). -/
theorem stdEduUni_eq_direct (sc1 sc2 : String → String → ℚ)
    (cells : List PyObj) :
    standardize_education_universidad sc1 sc2 cells =
      cells.map (fun c =>
        some (_find_best_uni_match sc1 sc2 c UNIVERSIDADES_CANONICAS reverseMapUni)) := by
  unfold standardize_education_universidad
  apply mapCongrMem
  intro c hc
  exact dictGet_map_self
    (fun u => _find_best_uni_match sc1 sc2 u UNIVERSIDADES_CANONICAS (buildReverseMap UNI_MAP))
    (pdUnique cells) c ((mem_pdUnique cells c).2 hc)

/-! ## Lemmas about keep-first deduplication -/

theorem dedup_fold_fst {κ π : Type} [DecidableEq κ] (rows : List (κ × π))
    (acc : List (κ × π)) :
    (rows.foldl (fun a r => if r.1 ∈ a.map Prod.fst then a else a ++ [r]) acc).map
        Prod.fst =
      (rows.map Prod.fst).foldl (fun a k => if k ∈ a then a else a ++ [k])
        (acc.map Prod.fst) := by
  induction rows generalizing acc with
  | nil => rfl
  | cons r rs ih =>
    simp only [List.foldl_cons, List.map_cons]
    by_cases hr : r.1 ∈ acc.map Prod.fst
    · rw [if_pos hr, if_pos hr]
      exact ih acc
    · rw [if_neg hr, if_neg hr]
      have := ih (acc ++ [r])
      simpa [List.map_append] using this

theorem dedup_fold_find {κ π : Type} [DecidableEq κ] (rows : List (κ × π))
    (acc : List (κ × π)) (k : κ) (p : π)
    (h : (k, p) ∈
      rows.foldl (fun a r => if r.1 ∈ a.map Prod.fst then a else a ++ [r]) acc) :
    (k, p) ∈ acc ∨
      (k ∉ acc.map Prod.fst ∧ rows.find? (fun r => r.1 == k) = some (k, p)) := by
  induction rows generalizing acc with
  | nil => exact Or.inl h
  | cons x xs ih =>
    simp only [List.foldl_cons] at h
    by_cases hx : x.1 ∈ acc.map Prod.fst
    · rw [if_pos hx] at h
      rcases ih acc h with h1 | ⟨h2, h3⟩
      · exact Or.inl h1
      · refine Or.inr ⟨h2, ?_⟩
        have hne : (x.1 == k) = false := by
          simp only [beq_eq_false_iff_ne, ne_eq]
          intro he
          exact h2 (he ▸ hx)
        simp only [List.find?_cons, hne]
        exact h3
    · rw [if_neg hx] at h
      rcases ih (acc ++ [x]) h with h1 | ⟨h2, h3⟩
      · rcases List.mem_append.1 h1 with ha | hb
        · exact Or.inl ha
        · have hxe : x = (k, p) := by
            have : (k, p) = x := by simpa using hb
            exact this.symm
          have hk1 : x.1 = k := by rw [hxe]
          refine Or.inr ⟨hk1 ▸ hx, ?_⟩
          have heq : (x.1 == k) = true := by simp [hk1]
          simp only [List.find?_cons, heq]
          rw [hxe]
      · have h2a : k ∉ acc.map Prod.fst := fun hk =>
          h2 (by simp [List.map_append, hk])
        have hxk : (x.1 == k) = false := by
          simp only [beq_eq_false_iff_ne, ne_eq]
          intro he
          exact h2 (by simp [List.map_append, he])
        refine Or.inr ⟨h2a, ?_⟩
        simp only [List.find?_cons, hxk]
        exact h3

/-! ## Lemmas about the re-ranking loop -/

theorem le_foldl_max_init (l : List ℚ) (a : ℚ) : a ≤ l.foldl max a := by
  induction l generalizing a with
  | nil => exact le_refl a
  | cons x xs ih => exact le_trans (le_max_left a x) (ih (max a x))

theorem le_foldl_max_of_mem {l : List ℚ} {x : ℚ} (a : ℚ) (h : x ∈ l) :
    x ≤ l.foldl max a := by
  induction l generalizing a with
  | nil => cases h
  | cons y ys ih =>
    rcases List.mem_cons.1 h with rfl | hy
    · exact le_trans (le_max_right a x) (le_foldl_max_init ys (max a x))
    · exact ih (max a y) hy

theorem foldl_max_const {l : List ℚ} {a : ℚ} (h : ∀ x ∈ l, x ≤ a) :
    l.foldl max a = a := by
  induction l with
  | nil => rfl
  | cons x xs ih =>
    simp only [List.foldl_cons]
    rw [max_eq_left (h x (List.mem_cons_self x xs))]
    exact ih (fun y hy => h y (List.mem_cons_of_mem x hy))

theorem foldl_max_attained (l : List ℚ) (a : ℚ) :
    l.foldl max a = a ∨ l.foldl max a ∈ l := by
  induction l generalizing a with
  | nil => exact Or.inl rfl
  | cons x xs ih =>
    simp only [List.foldl_cons]
    rcases ih (max a x) with h | h
    · rw [h]
      rcases max_choice a x with h2 | h2
      · exact Or.inl h2
      · refine Or.inr ?_
        rw [h2]
        exact List.mem_cons_self x xs
    · exact Or.inr (List.mem_cons_of_mem x h)

theorem selectBest_loop_snd (l : List (String × ℚ)) (b : Option String × ℚ) :
    (l.foldl (fun best p => if best.2 < p.2 then (some p.1, p.2) else best) b).2 =
      (l.map Prod.snd).foldl max b.2 := by
  induction l generalizing b with
  | nil => rfl
  | cons p ps ih =>
    simp only [List.foldl_cons, List.map_cons]
    rw [ih]
    congr 1
    by_cases h : b.2 < p.2
    · rw [if_pos h]
      exact (max_eq_right h.le).symm
    · rw [if_neg h]
      exact (max_eq_left (not_lt.1 h)).symm

theorem selectBest_loop_no_update (l : List (String × ℚ))
    (b : Option String × ℚ) (h : ∀ p ∈ l, p.2 ≤ b.2) :
    l.foldl (fun best p => if best.2 < p.2 then (some p.1, p.2) else best) b = b := by
  induction l with
  | nil => rfl
  | cons p ps ih =>
    simp only [List.foldl_cons]
    rw [if_neg (not_lt.2 (h p (List.mem_cons_self p ps)))]
    exact ih (fun r hr => h r (List.mem_cons_of_mem p hr))

theorem selectBest_loop_found (l : List (String × ℚ)) (b : Option String × ℚ)
    (h : ∃ p ∈ l, b.2 < p.2) :
    ∃ q, l.find? (fun p => p.2 == (l.map Prod.snd).foldl max b.2) = some q ∧
      l.foldl (fun best p => if best.2 < p.2 then (some p.1, p.2) else best) b =
        (some q.1, q.2) ∧
      q.2 = (l.map Prod.snd).foldl max b.2 := by
  induction l generalizing b with
  | nil =>
    obtain ⟨p, hp, _⟩ := h
    exact absurd hp (List.not_mem_nil p)
  | cons p ps ih =>
    simp only [List.foldl_cons, List.map_cons]
    by_cases hbp : b.2 < p.2
    · rw [if_pos hbp, max_eq_right hbp.le]
      by_cases hrest : ∃ r ∈ ps, p.2 < r.2
      · obtain ⟨q, hfind, hfold, hq2⟩ := ih (some p.1, p.2) hrest
        obtain ⟨r, hr, hpr⟩ := hrest
        have hM : p.2 < (ps.map Prod.snd).foldl max p.2 :=
          lt_of_lt_of_le hpr
            (le_foldl_max_of_mem p.2 (List.mem_map.2 ⟨r, hr, rfl⟩))
        have hne : (p.2 == (ps.map Prod.snd).foldl max p.2) = false := by
          simp only [beq_eq_false_iff_ne, ne_eq]
          exact ne_of_lt hM
        refine ⟨q, ?_, hfold, hq2⟩
        simp only [List.find?_cons, hne]
        exact hfind
      · push_neg at hrest
        have hconst : (ps.map Prod.snd).foldl max p.2 = p.2 :=
          foldl_max_const (by
            intro x hx
            obtain ⟨r, hr, rfl⟩ := List.mem_map.1 hx
            exact hrest r hr)
        have hfold := selectBest_loop_no_update ps (some p.1, p.2) hrest
        have heq : (p.2 == (ps.map Prod.snd).foldl max p.2) = true := by
          simp [hconst]
        refine ⟨p, ?_, hfold, hconst.symm⟩
        simp only [List.find?_cons, heq]
    · rw [if_neg hbp, max_eq_left (not_lt.1 hbp)]
      obtain ⟨r, hr, hbr⟩ := h
      rcases List.mem_cons.1 hr with rfl | hrps
      · exact absurd hbr hbp
      · obtain ⟨q, hfind, hfold, hq2⟩ := ih b ⟨r, hrps, hbr⟩
        have hM : p.2 < (ps.map Prod.snd).foldl max b.2 :=
          lt_of_le_of_lt (not_lt.1 hbp)
            (lt_of_lt_of_le hbr
              (le_foldl_max_of_mem b.2 (List.mem_map.2 ⟨r, hrps, rfl⟩)))
        have hne : (p.2 == (ps.map Prod.snd).foldl max b.2) = false := by
          simp only [beq_eq_false_iff_ne, ne_eq]
          exact ne_of_lt hM
        refine ⟨q, ?_, hfold, hq2⟩
        simp only [List.find?_cons, hne]
        exact hfind

theorem selectBest_spec (l : List (String × ℚ)) :
    (selectBest l).2 = bestFinalScore l ∧
    (0 < bestFinalScore l → selectBest l = (firstArgmax l, bestFinalScore l)) ∧
    (bestFinalScore l = 0 → (selectBest l).1 = none) := by
  refine ⟨selectBest_loop_snd l (none, 0), ?_, ?_⟩
  · intro hpos
    have hex : ∃ p ∈ l, (0 : ℚ) < p.2 := by
      rcases foldl_max_attained (l.map Prod.snd) 0 with h | h
      · exfalso
        have h0 : bestFinalScore l = 0 := h
        rw [h0] at hpos
        exact lt_irrefl 0 hpos
      · obtain ⟨p, hp, hp2⟩ := List.mem_map.1 h
        refine ⟨p, hp, ?_⟩
        rw [hp2]
        exact hpos
    obtain ⟨q, hfind, hfold, hq2⟩ := selectBest_loop_found l (none, 0) hex
    have h1 : firstArgmax l = some q.1 := by
      unfold firstArgmax
      rw [show l.find? (fun p => p.2 == bestFinalScore l) =
            l.find? (fun p => p.2 ==
              (l.map Prod.snd).foldl max
                ((none : Option String), (0 : ℚ)).2) from rfl, hfind]
      rfl
    have h2 : bestFinalScore l = q.2 := hq2.symm
    unfold selectBest
    rw [hfold, h1, h2]
  · intro hzero
    have hall : ∀ p ∈ l, p.2 ≤ (0 : ℚ) := by
      intro p hp
      have hle : p.2 ≤ bestFinalScore l :=
        le_foldl_max_of_mem 0 (List.mem_map.2 ⟨p, hp, rfl⟩)
      rw [hzero] at hle
      exact hle
    unfold selectBest
    rw [selectBest_loop_no_update l (none, 0) hall]

/-- Shared characterization of `find_best_match_bcn` for a non-falsy query
and a nonempty choice list: the returned score is always the best combined
score; a positive best score at or above the threshold returns the first
candidate attaining it; a best score below the threshold returns `none`
together with the best score. -/
theorem find_best_match_bcn_characterization (sc1 sc2 : String → String → ℚ)
    (q : String) (choices : List String) (t : ℚ)
    (hq : q ≠ "") (hc : choices ≠ []) :
    (find_best_match_bcn sc1 sc2 q choices t).2 =
        bestFinalScore (combinedScores sc1 sc2 q choices) ∧
    (0 < bestFinalScore (combinedScores sc1 sc2 q choices) →
      t ≤ bestFinalScore (combinedScores sc1 sc2 q choices) →
      find_best_match_bcn sc1 sc2 q choices t =
        (firstArgmax (combinedScores sc1 sc2 q choices),
         bestFinalScore (combinedScores sc1 sc2 q choices))) ∧
    (bestFinalScore (combinedScores sc1 sc2 q choices) < t →
      find_best_match_bcn sc1 sc2 q choices t =
        (none, bestFinalScore (combinedScores sc1 sc2 q choices))) := by
  have hcond : ¬(q = "" ∨ choices = []) := by
    rintro (h | h)
    · exact hq h
    · exact hc h
  obtain ⟨hsnd, hposc, _⟩ := selectBest_spec (combinedScores sc1 sc2 q choices)
  simp only [find_best_match_bcn, if_neg hcond]
  refine ⟨?_, ?_, ?_⟩
  · by_cases ht : t ≤ (selectBest (combinedScores sc1 sc2 q choices)).2
    · rw [if_pos ht]
      exact hsnd
    · rw [if_neg ht]
      exact hsnd
  · intro h0 hts
    have ht : t ≤ (selectBest (combinedScores sc1 sc2 q choices)).2 := by
      rw [hsnd]
      exact hts
    rw [if_pos ht]
    exact hposc h0
  · intro hlt
    have ht : ¬ t ≤ (selectBest (combinedScores sc1 sc2 q choices)).2 := by
      rw [hsnd]
      exact not_le.2 hlt
    rw [if_neg ht, hsnd]

theorem civilSelect_getD_mem (c : PyObj) :
    (civilSelect c).getD "Desconocido" ∈
      ["Conviviente Civil", "Casado/a", "Divorciado/a", "Separado/a",
       "Viudo/a", "Soltero/a", "Desconocido"] := by
  simp only [civilSelect]
  split_ifs <;> simp

/-! ## Lemmas about the arg-max of the similarity scores -/

theorem getD_idxOfMax (l : List ℚ) : l.getD (idxOfMax l) 0 = maxQ l := by
  induction l with
  | nil => rfl
  | cons x xs ih =>
    cases xs with
    | nil => rfl
    | cons y ys =>
      show List.getD (x :: y :: ys)
        (if maxQ (y :: ys) ≤ x then 0 else idxOfMax (y :: ys) + 1) 0 =
          max x (maxQ (y :: ys))
      by_cases h : maxQ (y :: ys) ≤ x
      · rw [if_pos h, max_eq_left h]
        rfl
      · rw [if_neg h, max_eq_right (le_of_lt (not_le.1 h))]
        simpa using ih

theorem idxOfMax_first (l : List ℚ) :
    ∀ j, j < idxOfMax l → l.getD j 0 < maxQ l := by
  induction l with
  | nil => intro j hj; cases hj
  | cons x xs ih =>
    cases xs with
    | nil => intro j hj; cases hj
    | cons y ys =>
      intro j hj
      have hidx : idxOfMax (x :: y :: ys) =
          if maxQ (y :: ys) ≤ x then 0 else idxOfMax (y :: ys) + 1 := rfl
      rw [hidx] at hj
      by_cases h : maxQ (y :: ys) ≤ x
      · rw [if_pos h] at hj
        cases hj
      · rw [if_neg h] at hj
        have hmax : maxQ (x :: y :: ys) = maxQ (y :: ys) :=
          max_eq_right (le_of_lt (not_le.1 h))
        rw [hmax]
        cases j with
        | zero => exact not_le.1 h
        | succ k =>
          have hk : k < idxOfMax (y :: ys) := Nat.lt_of_succ_lt_succ hj
          simpa using ih k hk

/-- Shared lemma: whenever the normalized primary entry of a raw value hits
the inverted alias map, `_find_best_uni_match` returns that canonical label
— for arbitrary scorer functions, i.e. without consulting the fuzzy stage.
The two early-exit inputs `""` and `"nan"` agree with the alias table, which
also maps them to `"Desconocida"`. -/
theorem resolve_alias_hit (sc1 sc2 : String → String → ℚ) (raw canon : String)
    (h : dictGet reverseMapUni
        (String.mk (normalizeChars (primaryChars raw.data))) = some canon) :
    _find_best_uni_match sc1 sc2 (.str raw) UNIVERSIDADES_CANONICAS
      reverseMapUni = canon := by
  simp only [_find_best_uni_match, resolvePrimary]
  by_cases he : String.mk (normalizeChars (primaryChars raw.data)) = "" ∨
      String.mk (normalizeChars (primaryChars raw.data)) = "nan"
  · rw [if_pos he]
    rcases he with he | he
    · rw [he] at h
      have hd : dictGet reverseMapUni "" = some "Desconocida" := by decide
      rw [hd] at h
      exact (Option.some.inj h)
    · rw [he] at h
      have hd : dictGet reverseMapUni "nan" = some "Desconocida" := by decide
      rw [hd] at h
      exact (Option.some.inj h)
  · rw [if_neg he, h]

/-! ## Lemmas about the career regex loop -/

/-- The per-term resolution of the career loop: a nonempty term gets the
first category (in table order) whose pattern matches. -/
theorem careerMatches_fold_eq (reSearch : String → String → Bool)
    (cleaned : List String) (acc : List String) :
    cleaned.foldl
      (fun cats term =>
        if term = "" then cats
        else
          match CAREER_MAP_REGEX.find? (fun p => reSearch p.2 term) with
          | some p => if p.1 ∈ cats then cats else cats ++ [p.1]
          | none => cats)
      acc =
    (cleaned.filterMap (fun term =>
        if term = "" then none
        else (CAREER_MAP_REGEX.find? (fun p => reSearch p.2 term)).map
          Prod.fst)).foldl
      (fun a x => if x ∈ a then a else a ++ [x]) acc := by
  induction cleaned generalizing acc with
  | nil => rfl
  | cons t ts ih =>
    simp only [List.foldl_cons, List.filterMap_cons]
    by_cases ht : t = ""
    · rw [if_pos ht, if_pos ht]
      exact ih acc
    · rw [if_neg ht, if_neg ht]
      cases hf : CAREER_MAP_REGEX.find? (fun p => reSearch p.2 t) with
      | none => exact ih acc
      | some p => exact ih (if p.1 ∈ acc then acc else acc ++ [p.1])

theorem careerMatches_eq (reSearch : String → String → Bool)
    (cleaned : List String) :
    careerMatches reSearch cleaned =
      pdUnique (cleaned.filterMap (fun term =>
        if term = "" then none
        else (CAREER_MAP_REGEX.find? (fun p => reSearch p.2 term)).map
          Prod.fst)) :=
  careerMatches_fold_eq reSearch cleaned []

theorem careerMatches_subset_keys (reSearch : String → String → Bool)
    (cleaned : List String) (x : String)
    (hx : x ∈ careerMatches reSearch cleaned) :
    x ∈ CAREER_MAP_REGEX.map Prod.fst := by
  rw [careerMatches_eq] at hx
  rw [mem_pdUnique] at hx
  obtain ⟨t, _, hft⟩ := List.mem_filterMap.1 hx
  by_cases ht : t = ""
  · rw [if_pos ht] at hft
    cases hft
  · rw [if_neg ht] at hft
    cases hf : CAREER_MAP_REGEX.find? (fun p => reSearch p.2 t) with
    | none =>
      rw [hf] at hft
      cases hft
    | some p =>
      rw [hf] at hft
      have hp := List.mem_of_find?_eq_some hf
      have : p.1 = x := by
        simpa using hft
      exact this ▸ List.mem_map.2 ⟨p, hp, rfl⟩

/-! ## Character-level lemmas about the normalizer -/

theorem isMn_pyLower {c : Char} (h : isMn c = false) : isMn (pyLower c) = false := by
  unfold pyLower
  cases hf : LOWER_TABLE.find? (fun p => p.1 == c) with
  | none => exact h
  | some p =>
    have hp := List.mem_of_find?_eq_some hf
    have key : ∀ r ∈ LOWER_TABLE, isMn r.2 = false := by decide
    exact key p hp

theorem normCore_ne_nil {e : Char} (h : isMn e = false) : normCore e ≠ [] := by
  unfold normCore nfdChar
  cases hf : NFD_TABLE.find? (fun p => p.1 == e) with
  | none =>
    simp [List.filter, h]
  | some q =>
    have hq := List.mem_of_find?_eq_some hf
    have key : ∀ r ∈ NFD_TABLE, r.2.filter (fun d => !(isMn d)) ≠ [] := by decide
    exact key q hq

/-- Every character produced by lower-then-decompose-then-drop-marks is a
fixed point of the whole pipeline, and has the same whitespace status as the
character it came from. -/
theorem normCore_pyLower_good (c : Char) (hc : isMn c = false) :
    ∀ d ∈ normCore (pyLower c),
      pyLower d = d ∧ normCore d = [d] ∧ isPySpace d = isPySpace (pyLower c) := by
  intro d hd
  cases hf : LOWER_TABLE.find? (fun p => p.1 == c) with
  | some p =>
    have hlc : pyLower c = p.2 := by
      unfold pyLower
      rw [hf]
    rw [hlc] at hd ⊢
    have hp := List.mem_of_find?_eq_some hf
    have key : ∀ r ∈ LOWER_TABLE, ∀ d ∈ normCore r.2,
        pyLower d = d ∧ normCore d = [d] ∧ isPySpace d = isPySpace r.2 := by
      decide
    exact key p hp d hd
  | none =>
    have hlc : pyLower c = c := by
      unfold pyLower
      rw [hf]
    rw [hlc] at hd ⊢
    have hnl : ∀ r ∈ LOWER_TABLE, ¬(r.1 = c) := by
      intro r hr
      have := List.find?_eq_none.1 hf r hr
      simpa using this
    unfold normCore nfdChar at hd
    cases hg : NFD_TABLE.find? (fun p => p.1 == c) with
    | some q =>
      rw [hg] at hd
      have hqm := List.mem_of_find?_eq_some hg
      have hq1 : q.1 = c := by
        have := List.find?_some hg
        simpa using this
      have key2 : ∀ r ∈ NFD_TABLE, (∀ s ∈ LOWER_TABLE, ¬(s.1 = r.1)) →
          ∀ d ∈ r.2.filter (fun x => !(isMn x)),
            pyLower d = d ∧ normCore d = [d] ∧ isPySpace d = isPySpace r.1 := by
        decide
      have := key2 q hqm (by rw [hq1]; exact hnl) d hd
      rw [hq1] at this
      exact this
    | none =>
      rw [hg] at hd
      have hdc : d = c := by
        rcases List.mem_filter.1 hd with ⟨hmem, _⟩
        simpa using hmem
      subst hdc
      refine ⟨hlc, ?_, rfl⟩
      unfold normCore nfdChar
      rw [hg]
      simp [List.filter, hc]

/-- Provenance of one output character: it is either the input character
itself or an output of one of the two finite tables. -/
theorem normCore_pyLower_origin (c d : Char) (hd : d ∈ normCore (pyLower c)) :
    d = c ∨ d ∈ (LOWER_TABLE.flatMap (fun p => normCore p.2) ++
      NFD_TABLE.flatMap (fun q => q.2)) := by
  cases hf : LOWER_TABLE.find? (fun p => p.1 == c) with
  | some p =>
    have hlc : pyLower c = p.2 := by
      unfold pyLower
      rw [hf]
    rw [hlc] at hd
    refine Or.inr (List.mem_append.2 (Or.inl ?_))
    exact List.mem_flatMap.2 ⟨p, List.mem_of_find?_eq_some hf, hd⟩
  | none =>
    have hlc : pyLower c = c := by
      unfold pyLower
      rw [hf]
    rw [hlc] at hd
    unfold normCore nfdChar at hd
    cases hg : NFD_TABLE.find? (fun p => p.1 == c) with
    | some q =>
      rw [hg] at hd
      refine Or.inr (List.mem_append.2 (Or.inr ?_))
      exact List.mem_flatMap.2
        ⟨q, List.mem_of_find?_eq_some hg, (List.mem_filter.1 hd).1⟩
    | none =>
      rw [hg] at hd
      rcases List.mem_filter.1 hd with ⟨hmem, _⟩
      exact Or.inl (by simpa using hmem)

theorem mem_pyStripChars {m : List Char} {e : Char} (h : e ∈ pyStripChars m) :
    e ∈ m := by
  unfold pyStripChars at h
  have h1 := List.mem_reverse.1 h
  have h2 := (List.dropWhile_sublist _).subset h1
  have h3 := List.mem_reverse.1 h2
  exact (List.dropWhile_sublist _).subset h3

/-- Every character of a `normalize_string` output originates from an input
character through lowering, decomposition and mark removal. -/
theorem mem_normalizeChars_origin (l : List Char) (d : Char)
    (hd : d ∈ normalizeChars l) :
    ∃ c ∈ l, d ∈ normCore (pyLower c) := by
  unfold normalizeChars at hd
  rcases List.mem_filter.1 hd with ⟨hmem, hMn⟩
  rcases List.mem_flatMap.1 hmem with ⟨e, he, hde⟩
  have he2 : e ∈ l.map pyLower := mem_pyStripChars he
  rcases List.mem_map.1 he2 with ⟨c, hc, rfl⟩
  exact ⟨c, hc, List.mem_filter.2 ⟨hde, hMn⟩⟩

/-- `normalize_string` cannot introduce a character that is neither in the
input nor an output of the lowering/decomposition tables. -/
theorem char_not_introduced (l : List Char) (b : Char) (hb : b ∉ l)
    (hout : b ∉ (LOWER_TABLE.flatMap (fun p => normCore p.2) ++
      NFD_TABLE.flatMap (fun q => q.2))) :
    b ∉ normalizeChars l := by
  intro hmem
  obtain ⟨c, hc, hcd⟩ := mem_normalizeChars_origin l b hmem
  rcases normCore_pyLower_origin c b hcd with rfl | h
  · exact hb hc
  · exact hout h

theorem mem_primaryChars {l : List Char} {e : Char} (h : e ∈ primaryChars l) :
    e ≠ ',' ∧ e ≠ '(' := by
  unfold primaryChars at h
  have h1 := mem_pyStripChars h
  have hpar := List.mem_takeWhile_imp h1
  have h2 := (List.takeWhile_sublist _).subset h1
  have hcom := List.mem_takeWhile_imp h2
  constructor
  · simpa using hcom
  · simpa using hpar

/-! ## Strip and flatMap lemmas for idempotence -/

theorem filter_flatMap_comm {α β : Type} (l : List α) (g : α → List β)
    (p : β → Bool) :
    (l.flatMap g).filter p = l.flatMap (fun a => (g a).filter p) := by
  induction l with
  | nil => rfl
  | cons a as ih => simp [List.flatMap_cons, List.filter_append, ih]

theorem normalizeChars_eq_flatMap (l : List Char) :
    normalizeChars l = (pyStripChars (l.map pyLower)).flatMap normCore := by
  unfold normalizeChars
  rw [filter_flatMap_comm]
  rfl

theorem dropWhile_append_singleton {p : Char → Bool} {a : Char}
    (ha : p a = false) (z : List Char) :
    (z ++ [a]).dropWhile p = z.dropWhile p ++ [a] := by
  induction z with
  | nil => simp [List.dropWhile_cons, ha]
  | cons b bs ih =>
    by_cases hb : p b
    · simp [List.dropWhile_cons, hb, ih]
    · simp [List.dropWhile_cons, hb]

theorem head_dropWhile_false (p : Char → Bool) (z : List Char) :
    ∀ x xs, z.dropWhile p = x :: xs → p x = false := by
  induction z with
  | nil => intro x xs h; cases h
  | cons a as ih =>
    intro x xs h
    rw [List.dropWhile_cons] at h
    by_cases ha : p a
    · rw [if_pos ha] at h
      exact ih x xs h
    · rw [if_neg ha] at h
      injection h with h1 _
      rw [← h1]
      simpa using ha

theorem pyStrip_head (m : List Char) :
    ∀ x xs, pyStripChars m = x :: xs → isPySpace x = false := by
  induction m with
  | nil => intro x xs h; cases h
  | cons a as ih =>
    intro x xs h
    unfold pyStripChars at h
    rw [List.dropWhile_cons] at h
    by_cases ha : isPySpace a
    · rw [if_pos ha] at h
      exact ih x xs h
    · rw [if_neg ha] at h
      rw [List.reverse_cons, dropWhile_append_singleton (by simpa using ha),
        List.reverse_append] at h
      simp only [List.reverse_cons, List.reverse_nil, List.nil_append,
        List.singleton_append] at h
      injection h with h1 _
      rw [← h1]
      simpa using ha

theorem pyStrip_reverse (m : List Char) :
    (pyStripChars m).reverse =
      (m.dropWhile isPySpace).reverse.dropWhile isPySpace := by
  unfold pyStripChars
  rw [List.reverse_reverse]

theorem pyStrip_revhead (m : List Char) :
    ∀ y ys, (pyStripChars m).reverse = y :: ys → isPySpace y = false := by
  intro y ys h
  rw [pyStrip_reverse] at h
  exact head_dropWhile_false _ _ y ys h

theorem pyStripChars_eq_self (m : List Char)
    (h1 : ∀ x xs, m = x :: xs → isPySpace x = false)
    (h2 : ∀ y ys, m.reverse = y :: ys → isPySpace y = false) :
    pyStripChars m = m := by
  have hd : m.dropWhile isPySpace = m := by
    cases m with
    | nil => rfl
    | cons x xs =>
      rw [List.dropWhile_cons, h1 x xs rfl]
      simp
  unfold pyStripChars
  rw [hd]
  have hd2 : m.reverse.dropWhile isPySpace = m.reverse := by
    cases hm : m.reverse with
    | nil => rfl
    | cons y ys =>
      rw [List.dropWhile_cons, h2 y ys hm]
      simp
  rw [hd2, List.reverse_reverse]

theorem reverse_flatMap_chars (g : Char → List Char) (u : List Char) :
    (u.flatMap g).reverse = u.reverse.flatMap (fun e => (g e).reverse) := by
  induction u with
  | nil => rfl
  | cons e es ih =>
    simp [List.flatMap_cons, List.flatMap_append, List.reverse_append,
      List.reverse_cons, ih]

theorem flatMap_headchar (g : Char → List Char) (u : List Char)
    (hne : ∀ e ∈ u, g e ≠ [])
    (hsp : ∀ e ∈ u, ∀ d ∈ g e, isPySpace d = isPySpace e)
    (hhead : ∀ x xs, u = x :: xs → isPySpace x = false) :
    ∀ y ys, u.flatMap g = y :: ys → isPySpace y = false := by
  intro y ys h
  cases u with
  | nil => simp at h
  | cons e es =>
    rw [List.flatMap_cons] at h
    cases hg : g e with
    | nil => exact absurd hg (hne e (List.mem_cons_self e es))
    | cons d ds =>
      rw [hg] at h
      simp only [List.cons_append] at h
      injection h with h1 _
      have hde := hsp e (List.mem_cons_self e es) d
        (by rw [hg]; exact List.mem_cons_self d ds)
      rw [← h1, hde]
      exact hhead e es rfl

theorem flatMap_eq_self (g : Char → List Char) (z : List Char)
    (h : ∀ d ∈ z, g d = [d]) : z.flatMap g = z := by
  induction z with
  | nil => rfl
  | cons d ds ih =>
    rw [List.flatMap_cons, h d (List.mem_cons_self d ds),
      ih (fun x hx => h x (List.mem_cons_of_mem d hx))]
    rfl

/-- Idempotence of the character pipeline on inputs free of standalone
combining marks. -/
theorem normalizeChars_idem (l : List Char) (h : ∀ c ∈ l, isMn c = false) :
    normalizeChars (normalizeChars l) = normalizeChars l := by
  have htl : normalizeChars l =
      (pyStripChars (l.map pyLower)).flatMap normCore :=
    normalizeChars_eq_flatMap l
  have hmemt : ∀ d ∈ normalizeChars l, pyLower d = d ∧ normCore d = [d] := by
    intro d hd
    obtain ⟨c, hc, hcd⟩ := mem_normalizeChars_origin l d hd
    have hg := normCore_pyLower_good c (h c hc) d hcd
    exact ⟨hg.1, hg.2.1⟩
  have hmap : (normalizeChars l).map pyLower = normalizeChars l := by
    have := mapCongrMem (normalizeChars l) pyLower id
      (fun d hd => (hmemt d hd).1)
    simpa using this
  have huf : ∀ e ∈ pyStripChars (l.map pyLower),
      isMn e = false ∧ ∃ c ∈ l, pyLower c = e := by
    intro e he
    have he2 : e ∈ l.map pyLower := mem_pyStripChars he
    rcases List.mem_map.1 he2 with ⟨c, hc, rfl⟩
    exact ⟨isMn_pyLower (h c hc), c, hc, rfl⟩
  have hstrip : pyStripChars (normalizeChars l) = normalizeChars l := by
    apply pyStripChars_eq_self
    · rw [htl]
      exact flatMap_headchar normCore (pyStripChars (l.map pyLower))
        (fun e he => normCore_ne_nil (huf e he).1)
        (fun e he d hd => by
          obtain ⟨hMn, c, hc, rfl⟩ := huf e he
          exact (normCore_pyLower_good c (h c hc) d hd).2.2)
        (fun x xs hx => pyStrip_head (l.map pyLower) x xs hx)
    · rw [htl, reverse_flatMap_chars]
      exact flatMap_headchar (fun e => (normCore e).reverse)
        (pyStripChars (l.map pyLower)).reverse
        (fun e he => by
          have := normCore_ne_nil (huf e (List.mem_reverse.1 he)).1
          simpa using this)
        (fun e he d hd => by
          obtain ⟨hMn, c, hc, rfl⟩ := huf e (List.mem_reverse.1 he)
          exact (normCore_pyLower_good c (h c hc) d
            (List.mem_reverse.1 hd)).2.2)
        (fun y ys hy => pyStrip_revhead (l.map pyLower) y ys hy)
  rw [normalizeChars_eq_flatMap (normalizeChars l), hmap, hstrip]
  exact flatMap_eq_self normCore (normalizeChars l)
    (fun d hd => (hmemt d hd).2)

/-! ## Claim theorems -/

/-- C1.  Map-once equivalence: for every column of raw values, building the
translation map over the distinct values and broadcasting it with
`Series.map` yields, for every row, exactly the result of resolving that
row's raw value directly with `_find_best_uni_match` — for arbitrary
`rapidfuzz` scorers, so in particular for the ones the source passes. -/
theorem claim_C1_map_once_equivalence (sc1 sc2 : String → String → ℚ)
    (cells : List PyObj) :
    standardize_education_universidad sc1 sc2 cells =
      cells.map (fun c =>
        some (_find_best_uni_match sc1 sc2 c UNIVERSIDADES_CANONICAS reverseMapUni)) :=
  stdEduUni_eq_direct sc1 sc2 cells

/-- C6 counterexample.  The deduplicator does *not* sort by match-quality
score: with two records for key `42` carrying scores `80` and `95` in input
order, `drop_duplicates(keep="first")` keeps the score-80 record, not the
score-95 record the claim promises. -/
theorem claim_C6_counterexample :
    dedupByKeyKeepFirst [((42 : ℕ), (80 : ℕ)), (42, 95)] = [(42, 80)] ∧
    ((42 : ℕ), (80 : ℕ)) ≠ ((42 : ℕ), (95 : ℕ)) := by
  decide

/-- C6 (amended).  The deduplicator keeps, for every distinct key, the
*first* record of the input (concatenation) order, verbatim and without any
sorting: the output keys are exactly the distinct input keys in order of
first appearance, and every surviving record is the first input record with
its key. -/
theorem claim_C6_dedup_keeps_first_per_key {κ π : Type} [DecidableEq κ]
    (rows : List (κ × π)) :
    (dedupByKeyKeepFirst rows).map Prod.fst = pdUnique (rows.map Prod.fst) ∧
    ∀ k p, (k, p) ∈ dedupByKeyKeepFirst rows →
      rows.find? (fun r => r.1 == k) = some (k, p) := by
  constructor
  · simpa [pdUnique, dedupByKeyKeepFirst] using dedup_fold_fst rows []
  · intro k p hmem
    rcases dedup_fold_find rows [] k p hmem with h | ⟨_, h⟩
    · exact absurd h (List.not_mem_nil _)
    · exact h

/-- Witness for C6 (amended) at a concrete record list. -/
theorem claim_C6_dedup_keeps_first_per_key_witness :
    List.find? (fun r => r.1 == 42) [((42 : ℕ), (80 : ℕ)), (42, 95)] =
      some (42, 80) :=
  (claim_C6_dedup_keeps_first_per_key [((42 : ℕ), (80 : ℕ)), (42, 95)]).2 42 80
    (by decide)

/-- C8.  Sentinel labeling preserves rows: the education and civil-status
standardizers are row-wise maps (length-preserving, no row dropped), every
education row receives a (non-missing) label with invalid values labelled
`"Desconocida"`, and every civil-status row receives one of the explicit
categories with `"Desconocido"` as the sentinel for unmatched values. -/
theorem claim_C8_sentinel_preserves_rows (sc1 sc2 : String → String → ℚ)
    (eduCells civilCells : List PyObj) :
    (standardize_education_universidad sc1 sc2 eduCells).length =
        eduCells.length ∧
    (standardize_education_universidad sc1 sc2 eduCells).all
        (fun o => o.isSome) = true ∧
    _find_best_uni_match sc1 sc2 PyObj.na UNIVERSIDADES_CANONICAS reverseMapUni =
        "Desconocida" ∧
    (standardize_civil_status civilCells).length = civilCells.length ∧
    (standardize_civil_status civilCells).all
        (fun s => decide (s ∈ ["Conviviente Civil", "Casado/a", "Divorciado/a",
          "Separado/a", "Viudo/a", "Soltero/a", "Desconocido"])) = true := by
  refine ⟨?_, ?_, rfl, ?_, ?_⟩
  · rw [stdEduUni_eq_direct]
    simp
  · rw [stdEduUni_eq_direct]
    simp [List.all_eq_true]
  · simp [standardize_civil_status]
  · simp only [standardize_civil_status, List.all_eq_true]
    intro s hs
    rcases List.mem_map.1 hs with ⟨c, _, rfl⟩
    simpa using civilSelect_getD_mem c

/-- C3.  Alias precedence: for every raw university value whose normalized
primary entry is a variant in the curated alias table, the resolver returns
that variant's canonical label for *arbitrary* scorer functions — the fuzzy
stage (and a fortiori the semantic stage, which this resolver never has) can
not influence the result, whatever score it would assign.  In particular raw
value `"PUC"` resolves to `"Pontificia Universidad Católica de Chile"`.
(The resolver returns only the label; the "confidence 100" of the spec is
definitional for exact alias hits, not a value this function produces.) -/
theorem claim_C3_alias_precedence (sc1 sc2 : String → String → ℚ)
    (raw canon : String)
    (h : dictGet reverseMapUni
        (String.mk (normalizeChars (primaryChars raw.data))) = some canon) :
    _find_best_uni_match sc1 sc2 (.str raw) UNIVERSIDADES_CANONICAS
        reverseMapUni = canon ∧
    _find_best_uni_match sc1 sc2 (.str "PUC") UNIVERSIDADES_CANONICAS
        reverseMapUni = "Pontificia Universidad Católica de Chile" :=
  ⟨resolve_alias_hit sc1 sc2 raw canon h,
   resolve_alias_hit sc1 sc2 "PUC" "Pontificia Universidad Católica de Chile"
     (by decide)⟩

/-- Witness for C3 at the concrete raw value `"PUC"` and concrete (constant)
scorers. -/
theorem claim_C3_alias_precedence_witness :
    _find_best_uni_match (fun _ _ => (0 : ℚ)) (fun _ _ => 0) (.str "PUC")
      UNIVERSIDADES_CANONICAS reverseMapUni =
      "Pontificia Universidad Católica de Chile" :=
  (claim_C3_alias_precedence (fun _ _ => (0 : ℚ)) (fun _ _ => 0) "PUC"
    "Pontificia Universidad Católica de Chile" (by decide)).1

/-- C7.  Semantic fallback contract of `find_dependencia_fast`: the selected
index is the arg-max of the similarity row (first occurrence of the maximum);
a best similarity at or above the threshold returns the candidate row's
label, the similarity times 100, and the row's dependency code; a best
similarity strictly below the threshold returns `(None, similarity*100,
None)`; a non-string or blank query returns `(None, 0, None)`.  The
similarity row of the external embedding model is the parameter `cosSim`. -/
theorem claim_C7_semantic_fallback (cosSim : String → List ℚ)
    (rows : List (String × Int)) (q : String) (t : ℚ)
    (hq : pyStripChars q.data ≠ []) :
    (cosSim q).getD (idxOfMax (cosSim q)) 0 = maxQ (cosSim q) ∧
    (∀ j, j < idxOfMax (cosSim q) →
      (cosSim q).getD j 0 < maxQ (cosSim q)) ∧
    (t ≤ (cosSim q).getD (idxOfMax (cosSim q)) 0 →
      find_dependencia_fast cosSim rows (.str q) t =
        ((rows.get? (idxOfMax (cosSim q))).map Prod.fst,
         (cosSim q).getD (idxOfMax (cosSim q)) 0 * 100,
         (rows.get? (idxOfMax (cosSim q))).map Prod.snd)) ∧
    ((cosSim q).getD (idxOfMax (cosSim q)) 0 < t →
      find_dependencia_fast cosSim rows (.str q) t =
        (none, (cosSim q).getD (idxOfMax (cosSim q)) 0 * 100, none)) ∧
    find_dependencia_fast cosSim rows PyObj.na t = (none, 0, none) ∧
    (∀ s : String, pyStripChars s.data = [] →
      find_dependencia_fast cosSim rows (.str s) t = (none, 0, none)) := by
  refine ⟨getD_idxOfMax (cosSim q), idxOfMax_first (cosSim q), ?_, ?_, rfl, ?_⟩
  · intro hacc
    simp only [find_dependencia_fast, if_neg hq]
    rw [if_neg (not_lt.2 hacc)]
    cases hr : rows.get? (idxOfMax (cosSim q)) with
    | none => simp
    | some r => simp
  · intro hrej
    simp only [find_dependencia_fast, if_neg hq]
    rw [if_pos hrej]
  · intro s hs
    simp only [find_dependencia_fast, if_pos hs]

/-- Witness for C7: two candidate rows, similarity row `[0, 1]`, threshold
`1`; the arg-max row `("b", 2)` is accepted exactly at the threshold with
similarity 100. -/
theorem claim_C7_semantic_fallback_witness :
    find_dependencia_fast (fun _ => [0, 1]) [("a", 1), ("b", 2)]
      (.str "x") 1 = (some "b", 100, some 2) := by
  have h := (claim_C7_semantic_fallback (fun _ => [0, 1])
    [("a", 1), ("b", 2)] "x" 1 (by decide)).2.2.1 (by decide)
  rw [h]
  have hidx : idxOfMax [(0 : ℚ), 1] = 1 := by norm_num [idxOfMax, maxQ]
  rw [hidx]
  norm_num [List.getD]

/-- C10.  In `standardize_career`, each nonempty cleaned term is assigned at
most one category — the first entry of `CAREER_MAP_REGEX` (in definition
order) whose pattern matches, which is what `List.find?` over the table
computes; the resulting category list has no duplicates; and it is exactly
`["Desconocida"]` iff no term of the cleaned value matches any category
pattern.  `reSearch` stands for the external `re.search`; the hypothesis
that no pattern matches the empty term holds for the concrete table (every
pattern requires at least one literal character). -/
theorem claim_C10_career_first_match (reSearch : String → String → Bool)
    (raw : RawCareer)
    (hEmpty : ∀ p ∈ CAREER_MAP_REGEX, reSearch p.2 "" = false) :
    careerMatches reSearch (_clean_raw_career raw) =
      pdUnique ((_clean_raw_career raw).filterMap (fun term =>
        if term = "" then none
        else (CAREER_MAP_REGEX.find? (fun p => reSearch p.2 term)).map
          Prod.fst)) ∧
    (careerCategories reSearch raw).Nodup ∧
    (careerCategories reSearch raw = ["Desconocida"] ↔
      ∀ term ∈ _clean_raw_career raw, ∀ p ∈ CAREER_MAP_REGEX,
        reSearch p.2 term = false) := by
  refine ⟨careerMatches_eq reSearch _, ?_, ?_, ?_⟩
  · simp only [careerCategories]
    by_cases hm : careerMatches reSearch (_clean_raw_career raw) = []
    · rw [if_pos hm]
      simp
    · rw [if_neg hm, careerMatches_eq]
      exact pdUnique_nodup _
  · intro h t ht p hp
    by_cases hm : careerMatches reSearch (_clean_raw_career raw) = []
    · rw [careerMatches_eq] at hm
      have hnil := (pdUnique_eq_nil _).1 hm
      have hft := List.filterMap_eq_nil_iff.1 hnil t ht
      by_cases htE : t = ""
      · subst htE
        exact hEmpty p hp
      · rw [if_neg htE] at hft
        cases hf : CAREER_MAP_REGEX.find? (fun r => reSearch r.2 t) with
        | none =>
          have := List.find?_eq_none.1 hf p hp
          simpa using this
        | some r =>
          rw [hf] at hft
          cases hft
    · exfalso
      simp only [careerCategories] at h
      rw [if_neg hm] at h
      have hdmem : "Desconocida" ∈ careerMatches reSearch (_clean_raw_career raw) := by
        rw [h]
        exact List.mem_cons_self _ _
      have hkeys := careerMatches_subset_keys reSearch _ _ hdmem
      have : "Desconocida" ∉ CAREER_MAP_REGEX.map Prod.fst := by decide
      exact this hkeys
  · intro hall
    have hfn : ∀ t ∈ _clean_raw_career raw,
        (if t = "" then none
         else (CAREER_MAP_REGEX.find? (fun p => reSearch p.2 t)).map
           Prod.fst) = none := by
      intro t ht
      by_cases htE : t = ""
      · simp [htE]
      · rw [if_neg htE]
        have hnone : CAREER_MAP_REGEX.find? (fun p => reSearch p.2 t) = none :=
          List.find?_eq_none.2 (fun p hp => by simp [hall t ht p hp])
        rw [hnone]
        rfl
    have hnil : (_clean_raw_career raw).filterMap _ = [] :=
      List.filterMap_eq_nil_iff.2 hfn
    simp only [careerCategories]
    rw [careerMatches_eq, hnil]
    simp [pdUnique]

/-- Witness for C10 with a concrete matcher (matching exactly the term
`"derecho"`) and the raw value `"Derecho; Psicología"`. -/
theorem claim_C10_career_first_match_witness :
    (careerCategories (fun _ t => t == "derecho")
      (.plain "Derecho; Psicología")).Nodup :=
  (claim_C10_career_first_match (fun _ t => t == "derecho")
    (.plain "Derecho; Psicología") (by decide)).2.1

/-- C5 counterexample.  Normalization is *not* idempotent on every string:
for the three-character string `a`, space, combining-acute (U+0301), the
first pass strips nothing (the string ends in a combining mark, not in
whitespace) and then drops the mark, leaving the trailing space `"a "`; the
second pass strips that space, giving `"a"`. -/
theorem claim_C5_counterexample :
    normStr (normStr (String.mk ['a', ' ', markAcute])) ≠
      normStr (String.mk ['a', ' ', markAcute]) := by
  decide

/-- C5 (amended).  `normalize_string` never raises (it is total by
construction); every non-string input yields `""`; and normalization is
idempotent on every string containing no standalone combining-mark
characters (category Mn) — in particular on all precomposed accented
text. -/
theorem claim_C5_normalize_idem :
    (∀ s : String, (∀ c ∈ s.data, isMn c = false) →
      normStr (normStr s) = normStr s) ∧
    normalize_string PyObj.na = "" := by
  refine ⟨?_, rfl⟩
  intro s hs
  exact congrArg String.mk (normalizeChars_idem s.data hs)

/-- Witness for C5 (amended) on a concrete accented string. -/
theorem claim_C5_normalize_idem_witness :
    normStr (normStr "  ÁÉñü Pérez  ") = normStr "  ÁÉñü Pérez  " :=
  claim_C5_normalize_idem.1 "  ÁÉñü Pérez  " (by decide)

/-- C9.  `_find_best_uni_match` resolves only the primary entry — the text
before the first comma or opening parenthesis: two raw values with the same
primary entry resolve identically (for any scorers, choices and alias map);
and since the normalized primary entry can contain neither `,` nor `(`, a
curated alias variant containing one of them — such as
`"universidad de los andes (chile)"`, which the table does carry — can never
be produced as a lookup key, so its alias-table entry is dead. -/
theorem claim_C9_prefix_only (sc1 sc2 : String → String → ℚ)
    (choices : List String) (rmap : List (String × String)) (r1 r2 : String)
    (hpre : primaryChars r1.data = primaryChars r2.data) :
    _find_best_uni_match sc1 sc2 (.str r1) choices rmap =
      _find_best_uni_match sc1 sc2 (.str r2) choices rmap ∧
    dictGet reverseMapUni "universidad de los andes (chile)" =
      some "Universidad de Los Andes" ∧
    ∀ (raw v : String), (',' ∈ v.data ∨ '(' ∈ v.data) →
      String.mk (normalizeChars (primaryChars raw.data)) ≠ v := by
  refine ⟨?_, by decide, ?_⟩
  · simp only [_find_best_uni_match]
    rw [hpre]
  · intro raw v hv he
    subst he
    rcases hv with hv | hv
    · exact char_not_introduced (primaryChars raw.data) ','
        (fun hmem => (mem_primaryChars hmem).1 rfl) (by decide) hv
    · exact char_not_introduced (primaryChars raw.data) '('
        (fun hmem => (mem_primaryChars hmem).2 rfl) (by decide) hv

/-- Witness for C9: two raw values differing only after the first comma or
parenthesis resolve identically. -/
theorem claim_C9_prefix_only_witness :
    _find_best_uni_match (fun _ _ => (0 : ℚ)) (fun _ _ => 0)
        (.str "Universidad de Chile, Derecho") UNIVERSIDADES_CANONICAS
        reverseMapUni =
      _find_best_uni_match (fun _ _ => (0 : ℚ)) (fun _ _ => 0)
        (.str "Universidad de Chile (Facultad)") UNIVERSIDADES_CANONICAS
        reverseMapUni :=
  (claim_C9_prefix_only (fun _ _ => (0 : ℚ)) (fun _ _ => 0)
    UNIVERSIDADES_CANONICAS reverseMapUni "Universidad de Chile, Derecho"
    "Universidad de Chile (Facultad)" (by decide)).1

/-- C2 counterexample.  With query `"a"` and candidate list `["b"]` every
combined score is 0 (the real `rapidfuzz` scorers also give
`token_set_ratio("a","b") = partial_token_set_ratio("a","b") = 0`, which the
constant-zero scorer parameters reproduce on this input).  At threshold 0
the best candidate `"b"` scores exactly the threshold, yet the function
returns `(None, 0)` instead of `("b", 0)`: the update loop only replaces the
incumbent on a *strictly* greater score than its initial 0, so the
inclusive-boundary acceptance of the claim fails for threshold 0. -/
theorem claim_C2_counterexample :
    bestFinalScore
        (combinedScores (fun _ _ => (0 : ℚ)) (fun _ _ => 0) "a" ["b"]) = 0 ∧
    find_best_match_bcn (fun _ _ => (0 : ℚ)) (fun _ _ => 0) "a" ["b"] 0 =
      (none, 0) := by
  decide

/-- C2 (amended).  For every non-falsy query, nonempty candidate list and
threshold: the returned score is always the best combined score found (so
the caller receives it even on rejection); when the best combined score is
*positive*, a best score exactly equal to the threshold (boundary inclusive,
`>=`) is accepted and the first candidate attaining it is returned with its
score; when the best combined score is below the threshold the result is
`(None, best score found)`.  (A best combined score of zero is returned with
label `None` even when it reaches the threshold — the loop never selects a
candidate at its initial score 0.) -/
theorem claim_C2_threshold_boundary (sc1 sc2 : String → String → ℚ)
    (q : String) (choices : List String) (t : ℚ)
    (hq : q ≠ "") (hc : choices ≠ []) :
    (find_best_match_bcn sc1 sc2 q choices t).2 =
        bestFinalScore (combinedScores sc1 sc2 q choices) ∧
    (0 < bestFinalScore (combinedScores sc1 sc2 q choices) →
      t ≤ bestFinalScore (combinedScores sc1 sc2 q choices) →
      find_best_match_bcn sc1 sc2 q choices t =
        (firstArgmax (combinedScores sc1 sc2 q choices),
         bestFinalScore (combinedScores sc1 sc2 q choices))) ∧
    (bestFinalScore (combinedScores sc1 sc2 q choices) < t →
      find_best_match_bcn sc1 sc2 q choices t =
        (none, bestFinalScore (combinedScores sc1 sc2 q choices))) :=
  find_best_match_bcn_characterization sc1 sc2 q choices t hq hc

/-- Witness for C2 (amended): a candidate scoring exactly at the threshold
(70) is accepted and returned with its score. -/
theorem claim_C2_threshold_boundary_witness :
    find_best_match_bcn (fun _ _ => (70 : ℚ)) (fun _ _ => 70)
      "juan perez" ["Pérez, Juan A."] 70 = (some "Pérez, Juan A.", 70) := by
  have h := claim_C2_threshold_boundary (fun _ _ => (70 : ℚ)) (fun _ _ => 70)
    "juan perez" ["Pérez, Juan A."] 70 (by decide) (by decide)
  have h2 := h.2.1 (by decide) (by decide)
  rw [h2]
  decide

/-- C4 counterexample.  With query `"x"` and candidates `["y", "z"]` every
combined score is 0 (as for the real scorers on these strings: no common
characters).  The candidate with the highest combined score that is
encountered first is `"y"`, but at threshold 0 the accepted call returns
`(None, 0)`: no candidate is ever *selected* when all combined scores are
zero, contradicting the claim's unconditional "selects the candidate with
the highest combined score". -/
theorem claim_C4_counterexample :
    firstArgmax
        (combinedScores (fun _ _ => (0 : ℚ)) (fun _ _ => 0) "x" ["y", "z"]) =
      some "y" ∧
    find_best_match_bcn (fun _ _ => (0 : ℚ)) (fun _ _ => 0) "x" ["y", "z"] 0 =
      (none, 0) := by
  decide

/-- C4 (amended).  For every non-empty query and non-empty candidate list,
provided the highest combined score is positive: `find_best_match_bcn`
retrieves the top K=5 candidates by the first scorer (`processExtract` —
stable descending order), re-scores only those with the second scorer on the
normalized strings, keeps each candidate's maximum of the two scores
(`combinedScores`), and returns the *first* candidate (in extraction order)
attaining the highest combined score when that score clears the threshold —
deterministic given a fixed candidate ordering.  (When every combined score
is zero no candidate is selected and the label is `None`.) -/
theorem claim_C4_selection (sc1 sc2 : String → String → ℚ) (q : String)
    (choices : List String) (t : ℚ) (hq : q ≠ "") (hc : choices ≠ [])
    (hpos : 0 < bestFinalScore (combinedScores sc1 sc2 q choices)) :
    find_best_match_bcn sc1 sc2 q choices t =
      (if t ≤ bestFinalScore (combinedScores sc1 sc2 q choices)
        then firstArgmax (combinedScores sc1 sc2 q choices)
        else none,
       bestFinalScore (combinedScores sc1 sc2 q choices)) := by
  obtain ⟨hsnd, hacc, hrej⟩ :=
    find_best_match_bcn_characterization sc1 sc2 q choices t hq hc
  by_cases ht : t ≤ bestFinalScore (combinedScores sc1 sc2 q choices)
  · rw [if_pos ht]
    exact hacc hpos ht
  · rw [if_neg ht]
    exact hrej (not_le.1 ht)

/-- Witness for C4 (amended): two candidates tie at the maximal combined
score 95 and the first one encountered, `"Bar"`, wins. -/
theorem claim_C4_selection_witness :
    find_best_match_bcn (fun _ _ => (95 : ℚ)) (fun _ _ => 95)
      "foo" ["Bar", "Baz"] 90 = (some "Bar", 95) := by
  have h := claim_C4_selection (fun _ _ => (95 : ℚ)) (fun _ _ => 95)
    "foo" ["Bar", "Baz"] 90 (by decide) (by decide) (by decide)
  rw [h]
  decide

end LVBP
